import Mathlib

/-!
Shallow embedding of `massa-db-worker/src/massa_db.rs` (`RawMassaDB`): a
versioned, hash-integrity-tracked key-value store with a bounded change log
and a bootstrap streaming protocol.

Modelling conventions:
- Keys and values are byte sequences (`List Nat`), ordered lexicographically
  as RocksDB orders byte keys.
- The RocksDB column families `STATE_CF`, `VERSIONING_CF` are modelled as
  association lists sorted strictly by key (the engine iterates keys in
  order); `METADATA_CF` holds exactly two entries, `CHANGE_ID_KEY` and
  `STATE_HASH_KEY`, modelled as dedicated fields.  The change id is seeded
  at store creation (`RawMassaDB::new`), so it is modelled as always
  present; the state hash is absent until the first write, so it stays an
  `Option`.
- `ChangeID` is generic in the source, constrained only to be totally
  ordered (the reference instantiation is a two-field `Slot`); we
  instantiate it with `Nat`, every use in the source being through the
  order alone.
- `HashXof::compute_from_tuple` is an external XOF digest; it is an
  explicit parameter `hfn` of every operation that hashes, and the XOF
  `^` accumulator (`HashXof` xor-assign) is `Nat.xor`, which models a
  fixed-width bytewise xor faithfully since xor never carries.
- The transient `current_batch` scratch `WriteBatch` is not represented:
  each call builds its batch afresh and commits it atomically, so the model
  applies the computed batch directly to the column-family fields.
- Fallible operations return `Except MassaDBError`; `expect`-style panics
  on engine errors are outside the model (the engine is assumed healthy).
-/

namespace Massa

/-- Keys are opaque byte sequences ordered lexicographically. -/
abbrev Key := List Nat

/-- Values are opaque byte sequences. -/
abbrev Value := List Nat

/-- The integrity-hash domain: a fixed-width XOF digest combined by xor.
Modelled as `Nat` with `Nat.xor`, which is carry-free and hence a faithful
model of bytewise xor on fixed-width digests. -/
abbrev Hash := Nat

/-- ChangeID instantiation: the source is generic over any totally ordered
ChangeID (reference instantiation `Slot`); all uses go through the order. -/
abbrev ChangeID := Nat

/-- Fixed constant `STATE_HASH_INITIAL_BYTES`: the hash of a store with no
hash entry yet. Its concrete value is irrelevant to every property here. -/
def STATE_HASH_INITIAL : Hash := 0

/-- Error taxonomy of `MassaDBError` (the variants this module produces). -/
inductive MassaDBError where
  | InvalidChangeID (msg : String)
  | TimeError (msg : String)
  | RocksDBError (msg : String)
deriving DecidableEq, Repr

/-- Returns true exactly on the `InvalidChangeID` variant. -/
def MassaDBError.isInvalidChangeID : MassaDBError → Bool
  | .InvalidChangeID _ => true
  | _ => false

/-- Returns true exactly on the `TimeError` variant. -/
def MassaDBError.isTimeError : MassaDBError → Bool
  | .TimeError _ => true
  | _ => false

/-- StreamingStep cursor from `massa_models::streaming_step`. -/
inductive StreamingStep (T : Type) where
  | Started
  | Ongoing (last : T)
  | Finished (opt : Option T)
deriving DecidableEq, Repr

/-- StreamingStep::finished. -/
def StreamingStep.finished : StreamingStep T → Bool
  | .Finished _ => true
  | _ => false

/-- StreamBatch: one replication unit, from `massa_db_exports`. The two
maps are sorted association lists (BTreeMap iteration order). -/
structure StreamBatch (ChangeID : Type) where
  new_elements : List (Key × Value)
  updates_on_previous_elements : List (Key × Option Value)
  change_id : ChangeID
deriving DecidableEq, Repr

/-- Configuration fields of `MassaDBConfig` the model consumes. -/
structure MassaDBConfig where
  max_history_length : Nat
  max_new_elements : Nat
deriving DecidableEq, Repr

section AssocOps

variable {K : Type} [LinearOrder K] {A : Type}

/-- Lookup in an association list (`BTreeMap::get` / engine `get_cf`). -/
def getAssoc (k : K) : List (K × A) → Option A
  | [] => none
  | (k', v') :: t => if k = k' then some v' else getAssoc k t

/-- Insert or overwrite in a key-sorted association list
(`BTreeMap::insert` / engine `put_cf`). -/
def setAssoc (k : K) (v : A) : List (K × A) → List (K × A)
  | [] => [(k, v)]
  | (k', v') :: t =>
    if k < k' then (k, v) :: (k', v') :: t
    else if k = k' then (k, v) :: t
    else (k', v') :: setAssoc k v t

/-- Remove a key from a key-sorted association list (`delete_cf`). -/
def delAssoc (k : K) : List (K × A) → List (K × A)
  | [] => []
  | (k', v') :: t => if k = k' then t else (k', v') :: delAssoc k t

/-- BTreeMap::extend: insert every pair of `l`, later pairs overwriting. -/
def extendAssoc (m : List (K × A)) (l : List (K × A)) : List (K × A) :=
  l.foldl (fun acc kv => setAssoc kv.1 kv.2 acc) m

/-- Invariant of the association-list representation of a BTreeMap: keys
strictly increase along the list. -/
def SortedKeys (l : List (K × A)) : Prop :=
  l.Pairwise (fun a b => a.1 < b.1)

instance (l : List (K × A)) : Decidable (SortedKeys l) :=
  inferInstanceAs (Decidable (l.Pairwise _))

end AssocOps

/-- Model of `RawMassaDB`.  `db_state`, `db_versioning` are the `STATE_CF`
and `VERSIONING_CF` column families; `db_change_id` and `db_hash` are the
`CHANGE_ID_KEY` and `STATE_HASH_KEY` rows of `METADATA_CF`; the two change
histories are the in-memory `BTreeMap` fields of the struct. -/
structure RawMassaDB where
  db_state : List (Key × Value)
  db_versioning : List (Key × Value)
  db_change_id : ChangeID
  db_hash : Option Hash
  change_history : List (ChangeID × List (Key × Option Value))
  change_history_versioning : List (ChangeID × List (Key × Option Value))
  config : MassaDBConfig
deriving DecidableEq, Repr

/-- RawMassaDB::new on a fresh directory: empty column families, empty
histories, change id seeded to the least Slot (period 0, thread 0). -/
def emptyDb (cfg : MassaDBConfig) : RawMassaDB :=
  { db_state := []
    db_versioning := []
    db_change_id := 0
    db_hash := none
    change_history := []
    change_history_versioning := []
    config := cfg }

/-- RawMassaDB::get_change_id: reads `CHANGE_ID_KEY`; always present after
seeding, so total in the model. -/
def get_change_id (db : RawMassaDB) : ChangeID :=
  db.db_change_id

/-- RawMassaDB::get_xof_db_hash: the persisted hash, or the initial
constant when none has been written yet. -/
def get_xof_db_hash (db : RawMassaDB) : Hash :=
  db.db_hash.getD STATE_HASH_INITIAL

/-- The hash-maintenance loop of `write_changes`: for each pair of
`changes`, xor out the digest of the prior `STATE_CF` value when present,
and xor in the digest of the new value on an insert.  `s` is the state
column family as it was before the batch is committed, which is what
`self.db.get_cf` reads in the source. -/
def writeHashLoop (hfn : Key → Value → Hash) (s : List (Key × Value))
    (changes : List (Key × Option Value)) (h0 : Hash) : Hash :=
  changes.foldl
    (fun h kv =>
      match kv.2 with
      | some v =>
        let h1 := match getAssoc kv.1 s with
          | some pv => h ^^^ hfn kv.1 pv
          | none => h
        h1 ^^^ hfn kv.1 v
      | none =>
        match getAssoc kv.1 s with
        | some pv => h ^^^ hfn kv.1 pv
        | none => h)
    h0

/-- Application of a `put_cf`/`delete_cf` batch to a column family:
a present value upserts, an absent value deletes. -/
def applyChanges (s : List (Key × Value)) (changes : List (Key × Option Value)) :
    List (Key × Value) :=
  changes.foldl
    (fun m kv =>
      match kv.2 with
      | some v => setAssoc kv.1 v m
      | none => delAssoc kv.1 m)
    s

/-- The change-history append of `write_changes`: `entry(change_id)`,
inserting the diff on a vacant entry and `extend`-merging on an occupied
one. -/
def historyUpdate (cid : ChangeID) (changes : List (Key × Option Value))
    (hist : List (ChangeID × List (Key × Option Value))) :
    List (ChangeID × List (Key × Option Value)) :=
  match getAssoc cid hist with
  | some entry => setAssoc cid (extendAssoc entry changes) hist
  | none => setAssoc cid changes hist

/-- The eviction loop of `write_changes`: while the history is longer than
`maxLen`, pop the first (oldest) entry. -/
def evictHistory (maxLen : Nat) : List (ChangeID × List (Key × Option Value)) →
    List (ChangeID × List (Key × Option Value))
  | [] => []
  | e :: t => if t.length + 1 > maxLen then evictHistory maxLen t else e :: t

/-- RawMassaDB::write_changes.  Mirrors the source step by step: the
monotonicity guard, the hash loop and batch construction over `changes`,
the verbatim `versioning_changes` application, the optional change-id
write, the hash write, the atomic commit, the two history appends keyed by
the (new) current change id, the `reset_history` clear of the state
history only, and the two eviction loops. -/
def write_changes (hfn : Key → Value → Hash) (db : RawMassaDB)
    (changes : List (Key × Option Value))
    (versioning_changes : List (Key × Option Value))
    (change_id : Option ChangeID) (reset_history : Bool) :
    Except MassaDBError RawMassaDB :=
  if (match change_id with
      | some cid => decide (cid < get_change_id db)
      | none => false) then
    .error (.InvalidChangeID "change_id should monotonically increase after every write")
  else
    let new_hash := writeHashLoop hfn db.db_state changes (get_xof_db_hash db)
    let new_state := applyChanges db.db_state changes
    let new_versioning := applyChanges db.db_versioning versioning_changes
    let new_cid := change_id.getD db.db_change_id
    let hist := historyUpdate new_cid changes db.change_history
    let hist_v := historyUpdate new_cid versioning_changes db.change_history_versioning
    let hist := if reset_history then [] else hist
    .ok { db with
      db_state := new_state
      db_versioning := new_versioning
      db_change_id := new_cid
      db_hash := some new_hash
      change_history := evictHistory db.config.max_history_length hist
      change_history_versioning := evictHistory db.config.max_history_length hist_v }

/-- The state of the store after a `write_changes` call, reflecting that
the source early-returns before any mutation on the `InvalidChangeID`
path: on error the store is unchanged. -/
def write_changes_result (hfn : Key → Value → Hash) (db : RawMassaDB)
    (changes versioning_changes : List (Key × Option Value))
    (change_id : Option ChangeID) (reset_history : Bool) : RawMassaDB :=
  match write_changes hfn db changes versioning_changes change_id reset_history with
  | .ok db2 => db2
  | .error _ => db

/-- Restriction of one change-log entry to the key range
`(Unbounded, bound]` — `Included(max_key)` when the cursor is `Ongoing`,
`Unbounded` otherwise. -/
def restrictChanges (bound : Option Key) (changes : List (Key × Option Value)) :
    List (Key × Option Value) :=
  match bound with
  | some max_key => changes.filter (fun kv => kv.1 ≤ max_key)
  | none => changes

/-- The union loop of `get_batch_to_stream`: starting from an empty map,
`extend` with each retained change-log entry in ascending ChangeID order,
each restricted to the cursor bound, later diffs overwriting earlier
ones. -/
def collectUpdates (bound : Option Key)
    (entries : List (ChangeID × List (Key × Option Value))) :
    List (Key × Option Value) :=
  entries.foldl (fun acc e => extendAssoc acc (restrictChanges bound e.2)) []

/-- The `new_elements` scan of `get_batch_to_stream`: skip when the cursor
is `Finished`; when `Ongoing(max_key)`, seek the engine iterator to the
first key at or after `max_key` and advance it once, then collect up to
`max_new_elements` pairs; from the start otherwise. -/
def scanNewElements (s : List (Key × Value)) (step : StreamingStep Key)
    (maxNew : Nat) : List (Key × Value) :=
  if step.finished then []
  else
    let tail := match step with
      | .Ongoing max_key => ((s.dropWhile (fun kv : Key × Value => kv.1 < max_key)).drop 1)
      | _ => s
    tail.take maxNew

/-- The exact inverse of a diff with respect to a store: for every touched
key, the change that restores its prior value (or prior absence) in the
store's State space. -/
def inverseDiff (db : RawMassaDB) (changes : List (Key × Option Value)) :
    List (Key × Option Value) :=
  changes.map fun kv => (kv.1, getAssoc kv.1 db.db_state)

/-- The `updates_on_previous_elements` computation of
`get_batch_to_stream`.  The `lower_bound(Excluded(last_change_id))` cursor
with its `peek_prev` guard is modelled on the sorted history list:
`peek_prev` is `none` exactly when every retained entry has id strictly
greater than `last_change_id`, and the
`range(Included(cursor.key()), Unbounded)` union runs over exactly the
entries with id strictly greater than `last_change_id` (empty when
`cursor.key()` is `none`). -/
def computeUpdates (db : RawMassaDB) (last_state_step : StreamingStep Key)
    (last_change_id : Option ChangeID) :
    Except MassaDBError (List (Key × Option Value)) :=
  let bound_key_for_changes : Option Key :=
    match last_state_step with
    | .Ongoing max_key => some max_key
    | _ => none
  match last_state_step, last_change_id with
  | .Started, _ => .ok []
  | _, some lcid =>
    if get_change_id db < lcid then
      .error (.TimeError "we do not have this change yet on this node (it is in the future for us)")
    else if lcid = get_change_id db then
      .ok []
    else
      if db.change_history.all (fun e => lcid < e.1) then
        .error (.TimeError "all our changes are strictly after last_change_id, we cannot be sure we did not miss any")
      else
        .ok (collectUpdates bound_key_for_changes
          (db.change_history.filter (fun e => lcid < e.1)))
  | _, none =>
    .error (.TimeError "State streaming was ongoing or finished, but no last_change_id was provided")

/-- RawMassaDB::get_batch_to_stream (`STATE_CF` streaming producer):
compute `updates_on_previous_elements` (propagating its `TimeError`s),
scan `STATE_CF` for `new_elements`, and stamp the batch with the current
ChangeID. -/
def get_batch_to_stream (db : RawMassaDB) (last_state_step : StreamingStep Key)
    (last_change_id : Option ChangeID) :
    Except MassaDBError (StreamBatch ChangeID) :=
  match computeUpdates db last_state_step last_change_id with
  | .error e => .error e
  | .ok updates_on_previous_elements =>
    .ok { new_elements := scanNewElements db.db_state last_state_step db.config.max_new_elements
          updates_on_previous_elements
          change_id := get_change_id db }

/-- RawMassaDB::write_batch_bootstrap_client: derive the next cursor per
space from the last key of `new_elements`, merge
`updates_on_previous_elements` then `new_elements` (as inserts) into one
diff per space, and commit through `write_changes` with the state batch
change id and `reset_history = true`.  Returns the mutated store with the
two next cursors. -/
def write_batch_bootstrap_client (hfn : Key → Value → Hash) (db : RawMassaDB)
    (stream_changes stream_changes_versioning : StreamBatch ChangeID) :
    Except MassaDBError (RawMassaDB × StreamingStep Key × StreamingStep Key) :=
  let new_cursor : StreamingStep Key :=
    match stream_changes.new_elements.getLast? with
    | some kv => .Ongoing kv.1
    | none => .Finished none
  let changes :=
    extendAssoc (extendAssoc [] stream_changes.updates_on_previous_elements)
      (stream_changes.new_elements.map (fun kv => (kv.1, some kv.2)))
  let new_cursor_versioning : StreamingStep Key :=
    match stream_changes_versioning.new_elements.getLast? with
    | some kv => .Ongoing kv.1
    | none => .Finished none
  let versioning_changes :=
    extendAssoc (extendAssoc [] stream_changes_versioning.updates_on_previous_elements)
      (stream_changes_versioning.new_elements.map (fun kv => (kv.1, some kv.2)))
  match write_changes hfn db changes versioning_changes
      (some stream_changes.change_id) true with
  | .error e => .error e
  | .ok db2 => .ok (db2, new_cursor, new_cursor_versioning)

/-- RawMassaDB::recompute_db_hash: fold the digest of every `STATE_CF`
pair into the accumulator — which the source initialises from the current
persisted hash via `get_xof_db_hash` — and persist the result. -/
def recompute_db_hash (hfn : Key → Value → Hash) (db : RawMassaDB) :
    Except MassaDBError RawMassaDB :=
  let h := db.db_state.foldl (fun h kv => h ^^^ hfn kv.1 kv.2) (get_xof_db_hash db)
  .ok { db with db_hash := some h }

/-- The full-rescan hash of a state column family, started from the
initial constant: the value the spec describes for a from-scratch
recomputation, and the value the incremental path maintains. -/
def hashOfState (hfn : Key → Value → Hash) (s : List (Key × Value)) : Hash :=
  s.foldl (fun h kv => h ^^^ hfn kv.1 kv.2) STATE_HASH_INITIAL

/-- An empty versioning StreamBatch carrying the given change id: what a
server with an empty `VERSIONING_CF` produces, and a neutral second
argument for `write_batch_bootstrap_client` (which ignores the versioning
batch change id). -/
def emptyVersioningBatch (cid : ChangeID) : StreamBatch ChangeID :=
  { new_elements := [], updates_on_previous_elements := [], change_id := cid }

/-- The bootstrap driver loop of claim C1: repeatedly ask the (static)
source store for the next state batch, apply it to the destination store
with an empty versioning batch, and stop when the consumer-derived cursor
is `Finished`.  Fuel bounds the iteration count; running out is reported
as an error so that theorems must exhibit sufficient fuel. -/
def streamLoop (hfn : Key → Value → Hash) (src : RawMassaDB) :
    RawMassaDB → StreamingStep Key → Option ChangeID → Nat →
    Except MassaDBError RawMassaDB
  | _, _, _, 0 => .error (.TimeError "out of fuel")
  | dest, cursor, lcid, fuel + 1 =>
    match get_batch_to_stream src cursor lcid with
    | .error e => .error e
    | .ok batch =>
      match write_batch_bootstrap_client hfn dest batch
          (emptyVersioningBatch batch.change_id) with
      | .error e => .error e
      | .ok (dest2, newCursor, _) =>
        match newCursor with
        | .Finished _ => .ok dest2
        | _ => streamLoop hfn src dest2 newCursor (some batch.change_id) fuel

/-- One `put_cf`/`delete_cf` step of the write batch. -/
def applyOne (m : List (Key × Value)) (kv : Key × Option Value) : List (Key × Value) :=
  match kv.2 with
  | some v => setAssoc kv.1 v m
  | none => delAssoc kv.1 m

/-- Digest of an optional value at a key: zero when absent (xoring nothing). -/
def optDig (hfn : Key → Value → Hash) (k : Key) : Option Value → Hash
  | some v => hfn k v
  | none => 0

/-- Net contribution of one change entry to the running hash: the digest of
the prior pair xored out, the digest of the new pair xored in. -/
def contrib (hfn : Key → Value → Hash) (s : List (Key × Value))
    (kv : Key × Option Value) : Hash :=
  optDig hfn kv.1 (getAssoc kv.1 s) ^^^ optDig hfn kv.1 kv.2

/-- The successor store of a successful `write_changes` call, spelled out:
the two column families with the batch applied, the optionally advanced
change id, the freshly persisted hash, and the two updated histories. -/
def writeChangesApply (hfn : Key → Value → Hash) (db : RawMassaDB)
    (changes versioning_changes : List (Key × Option Value))
    (change_id : Option ChangeID) (reset_history : Bool) : RawMassaDB :=
  { db with
    db_state := applyChanges db.db_state changes
    db_versioning := applyChanges db.db_versioning versioning_changes
    db_change_id := change_id.getD db.db_change_id
    db_hash := some (writeHashLoop hfn db.db_state changes (get_xof_db_hash db))
    change_history := evictHistory db.config.max_history_length
      (if reset_history then []
       else historyUpdate (change_id.getD db.db_change_id) changes db.change_history)
    change_history_versioning := evictHistory db.config.max_history_length
      (historyUpdate (change_id.getD db.db_change_id) versioning_changes
        db.change_history_versioning) }

/-- A sequence of `write_changes` calls, each carrying an explicit change
id and `reset_history = false` (the normal-operation path), stopping at
the first error. -/
def write_changes_seq (hfn : Key → Value → Hash) :
    RawMassaDB →
    List (List (Key × Option Value) × List (Key × Option Value) × ChangeID) →
    Except MassaDBError RawMassaDB
  | db, [] => .ok db
  | db, c :: t =>
    match write_changes hfn db c.1 c.2.1 (some c.2.2) false with
    | .error e => .error e
    | .ok db2 => write_changes_seq hfn db2 t

instance exceptDecidableEq {e a : Type} [DecidableEq e] [DecidableEq a] :
    DecidableEq (Except e a) := fun x y =>
  match x, y with
  | .error e1, .error e2 =>
    if h : e1 = e2 then .isTrue (by rw [h])
    else .isFalse (by intro hc; injection hc with h2; exact h h2)
  | .error _, .ok _ => .isFalse (by intro hc; injection hc)
  | .ok _, .error _ => .isFalse (by intro hc; injection hc)
  | .ok v1, .ok v2 =>
    if h : v1 = v2 then .isTrue (by rw [h])
    else .isFalse (by intro hc; injection hc with h2; exact h h2)

/-- Witness digest function: injective enough on the small byte lists used
by the concrete witnesses, and everywhere nonzero on them. -/
def hfnW : Key → Value → Hash :=
  fun k v => 2 ^ (k.headD 0) * 3 ^ (v.headD 0)

/-- Witness configuration: history capped at 10, one new element per
stream batch. -/
def cfgW : MassaDBConfig :=
  { max_history_length := 10, max_new_elements := 1 }

/-- Witness store: the store reached from `emptyDb cfgW` by writing
key [1] := [1] at change id 1 and then key [2] := [2] at change id 2 with
`hfnW` as digest (its persisted hash 34 is the incrementally maintained
one: 0 xor hfnW [1] [1] xor hfnW [2] [2] = 6 xor 36 = 34). -/
def dbW : RawMassaDB :=
  { db_state := [([1], [1]), ([2], [2])]
    db_versioning := []
    db_change_id := 2
    db_hash := some 34
    change_history := [(1, [([1], some [1])]), (2, [([2], some [2])])]
    change_history_versioning := [(1, []), (2, [])]
    config := cfgW }

/-- The store produced by consuming one bootstrap batch (key [1] at change
id 5) on an empty store, with the two next cursors: a concrete
intermediate state for witnesses. -/
def bootstrapStep1 : RawMassaDB × StreamingStep Key × StreamingStep Key :=
  ({ db_state := [([1], [1])]
     db_versioning := []
     db_change_id := 5
     db_hash := some 6
     change_history := []
     change_history_versioning := [(5, [])]
     config := cfgW },
   .Ongoing [1], .Finished none)

/-- A store where the key [1], already streamed to some client (whose
cursor is `Ongoing [1]`), has since been deleted: reached from the empty
store by writing keys [1] and [2] at change id 1 and deleting key [1] at
change id 2. -/
def db8 : RawMassaDB :=
  write_changes_result hfnW
    (write_changes_result hfnW (emptyDb cfgW)
      [([1], some [1]), ([2], some [2])] [] (some 1) false)
    [([1], none)] [] (some 2) false

section AssocLemmas

variable {K : Type} [LinearOrder K] {A : Type}

theorem getAssoc_eq_none_of_not_mem {k : K} {l : List (K × A)}
    (h : k ∉ l.map Prod.fst) : getAssoc k l = none := by
  induction l with
  | nil => rfl
  | cons hd t ih =>
    simp only [List.map_cons, List.mem_cons] at h
    push_neg at h
    simp [getAssoc, h.1, ih h.2]

theorem mem_of_getAssoc_eq_some {k : K} {v : A} {l : List (K × A)}
    (h : getAssoc k l = some v) : (k, v) ∈ l := by
  induction l with
  | nil => simp [getAssoc] at h
  | cons hd t ih =>
    by_cases hk : k = hd.1
    · subst hk
      rw [getAssoc, if_pos rfl] at h
      injection h with h
      subst h
      rw [Prod.mk.eta]
      exact List.mem_cons_self _ _
    · simp only [getAssoc, if_neg hk] at h
      exact List.mem_cons_of_mem _ (ih h)

theorem getAssoc_setAssoc_self (k : K) (v : A) (l : List (K × A)) :
    getAssoc k (setAssoc k v l) = some v := by
  induction l with
  | nil => simp [setAssoc, getAssoc]
  | cons hd t ih =>
    by_cases h1 : k < hd.1
    · simp [setAssoc, if_pos h1, getAssoc]
    · by_cases h2 : k = hd.1
      · simp [setAssoc, if_neg h1, if_pos h2, getAssoc]
      · simp [setAssoc, if_neg h1, if_neg h2, getAssoc, h2, ih]

theorem getAssoc_setAssoc_ne {k q : K} (h : q ≠ k) (v : A) (l : List (K × A)) :
    getAssoc q (setAssoc k v l) = getAssoc q l := by
  induction l with
  | nil => simp [setAssoc, getAssoc, h]
  | cons hd t ih =>
    by_cases h1 : k < hd.1
    · simp [setAssoc, if_pos h1, getAssoc, h]
    · by_cases h2 : k = hd.1
      · subst h2
        simp [setAssoc, if_neg h1, getAssoc, h]
      · by_cases h3 : q = hd.1
        · simp [setAssoc, if_neg h1, if_neg h2, getAssoc, h3]
        · simp [setAssoc, if_neg h1, if_neg h2, getAssoc, h3, ih]

theorem getAssoc_delAssoc_ne {k q : K} (h : q ≠ k) (l : List (K × A)) :
    getAssoc q (delAssoc k l) = getAssoc q l := by
  induction l with
  | nil => rfl
  | cons hd t ih =>
    by_cases h2 : k = hd.1
    · subst h2
      simp [delAssoc, getAssoc, h]
    · by_cases h3 : q = hd.1
      · simp [delAssoc, if_neg h2, getAssoc, h3]
      · simp [delAssoc, if_neg h2, getAssoc, h3, ih]

theorem getAssoc_delAssoc_self {k : K} {l : List (K × A)} (hs : SortedKeys l) :
    getAssoc k (delAssoc k l) = none := by
  induction l with
  | nil => rfl
  | cons hd t ih =>
    rw [SortedKeys, List.pairwise_cons] at hs
    by_cases h2 : k = hd.1
    · subst h2
      rw [delAssoc, if_pos rfl]
      apply getAssoc_eq_none_of_not_mem
      intro hmem
      rcases List.mem_map.mp hmem with ⟨a, ha, hka⟩
      exact absurd (hka ▸ hs.1 a ha) (lt_irrefl _)
    · rw [delAssoc, if_neg h2, getAssoc, if_neg h2]
      exact ih hs.2

theorem mem_setAssoc {a : K × A} {k : K} {v : A} {l : List (K × A)}
    (h : a ∈ setAssoc k v l) : a = (k, v) ∨ a ∈ l := by
  induction l with
  | nil => simpa [setAssoc] using h
  | cons hd t ih =>
    by_cases h1 : k < hd.1
    · simp only [setAssoc, if_pos h1, List.mem_cons] at h
      rcases h with h | h | h
      · exact Or.inl h
      · exact Or.inr (by simp [h])
      · exact Or.inr (List.mem_cons_of_mem _ h)
    · by_cases h2 : k = hd.1
      · simp only [setAssoc, if_neg h1, if_pos h2, List.mem_cons] at h
        rcases h with h | h
        · exact Or.inl h
        · exact Or.inr (List.mem_cons_of_mem _ h)
      · simp only [setAssoc, if_neg h1, if_neg h2, List.mem_cons] at h
        rcases h with h | h
        · exact Or.inr (by simp [h])
        · rcases ih h with h | h
          · exact Or.inl h
          · exact Or.inr (List.mem_cons_of_mem _ h)

theorem sortedKeys_setAssoc {l : List (K × A)} (hs : SortedKeys l)
    (k : K) (v : A) : SortedKeys (setAssoc k v l) := by
  induction l with
  | nil => simp [setAssoc, SortedKeys]
  | cons hd t ih =>
    rw [SortedKeys, List.pairwise_cons] at hs
    by_cases h1 : k < hd.1
    · rw [setAssoc, if_pos h1]
      rw [SortedKeys, List.pairwise_cons]
      constructor
      · intro a ha
        rcases List.mem_cons.mp ha with h | h
        · exact h ▸ h1
        · exact lt_trans h1 (hs.1 a h)
      · rw [List.pairwise_cons]
        exact ⟨hs.1, hs.2⟩
    · by_cases h2 : k = hd.1
      · subst h2
        rw [setAssoc, if_neg h1, if_pos rfl]
        rw [SortedKeys, List.pairwise_cons]
        exact ⟨hs.1, hs.2⟩
      · rw [setAssoc, if_neg h1, if_neg h2]
        rw [SortedKeys, List.pairwise_cons]
        constructor
        · intro a ha
          rcases mem_setAssoc ha with h | h
          · cases h
            exact lt_of_le_of_ne (not_lt.mp h1) (Ne.symm h2)
          · exact hs.1 a h
        · exact ih hs.2

theorem delAssoc_sublist (k : K) (l : List (K × A)) : (delAssoc k l).Sublist l := by
  induction l with
  | nil => simp [delAssoc]
  | cons hd t ih =>
    by_cases h2 : k = hd.1
    · rw [delAssoc, if_pos h2]
      exact List.sublist_cons_self _ _
    · rw [delAssoc, if_neg h2]
      exact ih.cons₂ hd

theorem sortedKeys_delAssoc {l : List (K × A)} (hs : SortedKeys l) (k : K) :
    SortedKeys (delAssoc k l) :=
  hs.sublist (delAssoc_sublist k l)

theorem setAssoc_eq_append {k : K} {v : A} {l : List (K × A)}
    (h : ∀ a ∈ l, a.1 < k) : setAssoc k v l = l ++ [(k, v)] := by
  induction l with
  | nil => rfl
  | cons hd t ih =>
    have hhd := h hd (List.mem_cons_self _ _)
    rw [setAssoc, if_neg (asymm hhd), if_neg (ne_of_gt hhd)]
    rw [ih fun a ha => h a (List.mem_cons_of_mem _ ha)]
    rfl

theorem extendAssoc_eq_append {m l : List (K × A)}
    (h : SortedKeys (m ++ l)) : extendAssoc m l = m ++ l := by
  induction l generalizing m with
  | nil => simp [extendAssoc]
  | cons hd t ih =>
    have hset : setAssoc hd.1 hd.2 m = m ++ [hd] := by
      rw [setAssoc_eq_append]
      intro a ha
      exact (List.pairwise_append.mp h).2.2 a ha hd (List.mem_cons_self _ _)
    have hperm : (m ++ [hd]) ++ t = m ++ hd :: t := by simp
    rw [extendAssoc, List.foldl_cons, hset]
    have h2 : SortedKeys ((m ++ [hd]) ++ t) := by rw [hperm]; exact h
    have := ih h2
    rw [extendAssoc] at this
    rw [this, hperm]

end AssocLemmas

section ApplyLemmas

theorem applyChanges_eq_foldl (s : List (Key × Value))
    (changes : List (Key × Option Value)) :
    applyChanges s changes = changes.foldl applyOne s := by
  rfl

theorem sortedKeys_applyOne {m : List (Key × Value)} (hs : SortedKeys m)
    (kv : Key × Option Value) : SortedKeys (applyOne m kv) := by
  cases h : kv.2 with
  | some v => rw [applyOne, h]; exact sortedKeys_setAssoc hs _ _
  | none => rw [applyOne, h]; exact sortedKeys_delAssoc hs _

theorem sortedKeys_applyChanges {s : List (Key × Value)} (hs : SortedKeys s)
    (changes : List (Key × Option Value)) : SortedKeys (applyChanges s changes) := by
  rw [applyChanges_eq_foldl]
  induction changes generalizing s with
  | nil => exact hs
  | cons hd t ih => exact ih (sortedKeys_applyOne hs hd)

theorem getAssoc_applyOne_ne {q : Key} {kv : Key × Option Value}
    (h : q ≠ kv.1) (m : List (Key × Value)) :
    getAssoc q (applyOne m kv) = getAssoc q m := by
  cases hv : kv.2 with
  | some v => rw [applyOne, hv]; exact getAssoc_setAssoc_ne h _ _
  | none => rw [applyOne, hv]; exact getAssoc_delAssoc_ne h _

theorem getAssoc_applyChanges_not_mem {q : Key} {changes : List (Key × Option Value)}
    (h : q ∉ changes.map Prod.fst) (s : List (Key × Value)) :
    getAssoc q (applyChanges s changes) = getAssoc q s := by
  rw [applyChanges_eq_foldl]
  induction changes generalizing s with
  | nil => rfl
  | cons hd t ih =>
    simp only [List.map_cons, List.mem_cons] at h
    push_neg at h
    rw [List.foldl_cons, ih h.2, getAssoc_applyOne_ne h.1]

theorem getAssoc_applyOne_self {m : List (Key × Value)} (hs : SortedKeys m)
    (kv : Key × Option Value) : getAssoc kv.1 (applyOne m kv) = kv.2 := by
  cases hv : kv.2 with
  | some v => rw [applyOne, hv]; exact getAssoc_setAssoc_self _ _ _
  | none => rw [applyOne, hv]; exact getAssoc_delAssoc_self hs

theorem getAssoc_applyChanges_mem {k : Key} {ov : Option Value}
    {changes : List (Key × Option Value)} {s : List (Key × Value)}
    (hc : SortedKeys changes) (hs : SortedKeys s) (hmem : (k, ov) ∈ changes) :
    getAssoc k (applyChanges s changes) = ov := by
  rw [applyChanges_eq_foldl]
  induction changes generalizing s with
  | nil => cases hmem
  | cons hd t ih =>
    rw [SortedKeys, List.pairwise_cons] at hc
    rcases List.mem_cons.mp hmem with h | h
    · subst h
      rw [List.foldl_cons]
      have hnot : k ∉ t.map Prod.fst := by
        intro hmem2
        rcases List.mem_map.mp hmem2 with ⟨a, ha, hka⟩
        exact absurd (hka ▸ hc.1 a ha) (lt_irrefl _)
      calc getAssoc k (t.foldl applyOne (applyOne s (k, ov)))
          = getAssoc k (applyOne s (k, ov)) := by
            rw [← applyChanges_eq_foldl]
            exact getAssoc_applyChanges_not_mem hnot _
        _ = ov := getAssoc_applyOne_self hs (k, ov)
    · rw [List.foldl_cons]
      exact ih hc.2 (sortedKeys_applyOne hs hd) h

end ApplyLemmas

section HashLemmas

theorem writeHashLoop_eq_contrib (hfn : Key → Value → Hash)
    (s : List (Key × Value)) (changes : List (Key × Option Value)) (h0 : Hash) :
    writeHashLoop hfn s changes h0 =
      changes.foldl (fun h kv => h ^^^ contrib hfn s kv) h0 := by
  rw [writeHashLoop]
  induction changes generalizing h0 with
  | nil => rfl
  | cons hd t ih =>
    rw [List.foldl_cons, List.foldl_cons, ih]
    congr 1
    cases hv : hd.2 with
    | some v =>
      cases hp : getAssoc hd.1 s with
      | some pv => simp [hv, hp, contrib, optDig, Nat.xor_assoc]
      | none => simp [hv, hp, contrib, optDig, Nat.xor_assoc]
    | none =>
      cases hp : getAssoc hd.1 s with
      | some pv => simp [hv, hp, contrib, optDig]
      | none => simp [hv, hp, contrib, optDig]

theorem foldl_xor_shift {α : Type} (c : α → Hash) (l : List α) (h0 h1 : Hash) :
    l.foldl (fun h a => h ^^^ c a) (h0 ^^^ h1) =
      h0 ^^^ l.foldl (fun h a => h ^^^ c a) h1 := by
  induction l generalizing h1 with
  | nil => rfl
  | cons hd t ih => rw [List.foldl_cons, List.foldl_cons, Nat.xor_assoc, ih]

theorem foldl_xor_pull {α : Type} (c : α → Hash) (l : List α) (h0 : Hash) :
    l.foldl (fun h a => h ^^^ c a) h0 =
      h0 ^^^ l.foldl (fun h a => h ^^^ c a) 0 := by
  have := foldl_xor_shift c l h0 0
  rwa [Nat.xor_zero] at this

theorem foldl_xor_congr {α : Type} {c1 c2 : α → Hash} {l : List α}
    (h : ∀ a ∈ l, c1 a = c2 a) (h0 : Hash) :
    l.foldl (fun h a => h ^^^ c1 a) h0 = l.foldl (fun h a => h ^^^ c2 a) h0 := by
  induction l generalizing h0 with
  | nil => rfl
  | cons hd t ih =>
    rw [List.foldl_cons, List.foldl_cons, h hd (List.mem_cons_self _ _)]
    exact ih (fun a ha => h a (List.mem_cons_of_mem _ ha)) _

end HashLemmas

section WriteChangesLemmas

theorem write_changes_none_eq (hfn : Key → Value → Hash) (db : RawMassaDB)
    (changes versioning_changes : List (Key × Option Value)) (reset_history : Bool) :
    write_changes hfn db changes versioning_changes none reset_history =
      .ok (writeChangesApply hfn db changes versioning_changes none reset_history) := by
  rw [write_changes]
  rfl

theorem write_changes_some_eq (hfn : Key → Value → Hash) (db : RawMassaDB)
    (changes versioning_changes : List (Key × Option Value)) (cid : ChangeID)
    (reset_history : Bool) (h : ¬ cid < get_change_id db) :
    write_changes hfn db changes versioning_changes (some cid) reset_history =
      .ok (writeChangesApply hfn db changes versioning_changes (some cid) reset_history) := by
  rw [write_changes]
  simp only [decide_eq_true_eq, if_neg h]
  rfl

theorem write_changes_some_err (hfn : Key → Value → Hash) (db : RawMassaDB)
    (changes versioning_changes : List (Key × Option Value)) (cid : ChangeID)
    (reset_history : Bool) (h : cid < get_change_id db) :
    write_changes hfn db changes versioning_changes (some cid) reset_history =
      .error (.InvalidChangeID "change_id should monotonically increase after every write") := by
  rw [write_changes]
  simp only [decide_eq_true_eq, if_pos h]

theorem write_changes_ok_elim {hfn : Key → Value → Hash} {db db2 : RawMassaDB}
    {changes versioning_changes : List (Key × Option Value)}
    {change_id : Option ChangeID} {reset_history : Bool}
    (hok : write_changes hfn db changes versioning_changes change_id reset_history =
      .ok db2) :
    db2 = writeChangesApply hfn db changes versioning_changes change_id reset_history := by
  cases change_id with
  | none =>
    rw [write_changes_none_eq] at hok
    injection hok with hok
    exact hok.symm
  | some cid =>
    by_cases h : cid < get_change_id db
    · rw [write_changes_some_err hfn db changes versioning_changes cid reset_history h] at hok
      cases hok
    · rw [write_changes_some_eq hfn db changes versioning_changes cid reset_history h] at hok
      injection hok with hok
      exact hok.symm

theorem write_changes_ok_change_id {hfn : Key → Value → Hash} {db db2 : RawMassaDB}
    {changes versioning_changes : List (Key × Option Value)} {cid : ChangeID}
    {reset_history : Bool}
    (hok : write_changes hfn db changes versioning_changes (some cid) reset_history =
      .ok db2) :
    get_change_id db2 = cid := by
  rw [write_changes_ok_elim hok]
  rfl

end WriteChangesLemmas

/-- Checks that `dbW` really is the two-write reach of the empty store. -/
theorem dbW_reached :
    write_changes_seq hfnW (emptyDb cfgW)
      [([([1], some [1])], [], 1), ([([2], some [2])], [], 2)] = .ok dbW := by
  decide

/-- Claim C2: a `write_changes` call whose `change_id` is strictly lower
than the current ChangeID fails with `InvalidChangeID`, and the store —
State contents, persisted hash, persisted ChangeID, and both change
logs — is unchanged (the source early-returns before building the batch,
so the post-call store equals the pre-call store). -/
theorem write_changes_rejects_lower_change_id (hfn : Key → Value → Hash)
    (db : RawMassaDB) (changes versioning_changes : List (Key × Option Value))
    (cid : ChangeID) (reset_history : Bool) (h : cid < get_change_id db) :
    write_changes hfn db changes versioning_changes (some cid) reset_history =
      .error (.InvalidChangeID "change_id should monotonically increase after every write") ∧
    write_changes_result hfn db changes versioning_changes (some cid) reset_history = db := by
  have herr := write_changes_some_err hfn db changes versioning_changes cid reset_history h
  exact ⟨herr, by rw [write_changes_result, herr]⟩

/-- Witness for C2: at `dbW` (current ChangeID 2), a write at change id 1
is rejected and leaves the store intact. -/
theorem write_changes_rejects_lower_change_id_witness :
    write_changes hfnW dbW [([7], some [7])] [] (some 1) false =
      .error (.InvalidChangeID "change_id should monotonically increase after every write") ∧
    write_changes_result hfnW dbW [([7], some [7])] [] (some 1) false = dbW :=
  write_changes_rejects_lower_change_id hfnW dbW [([7], some [7])] [] 1 false (by decide)

/-- Claim C10: a `write_changes` call with `change_id = none` always
succeeds — in particular it can never fail with `InvalidChangeID`, the
monotonicity guard being skipped — and it leaves the persisted ChangeID
(and the configuration) unchanged. -/
theorem write_changes_none_preserves_change_id (hfn : Key → Value → Hash)
    (db : RawMassaDB) (changes versioning_changes : List (Key × Option Value))
    (reset_history : Bool) :
    ∃ db2, write_changes hfn db changes versioning_changes none reset_history = .ok db2 ∧
      get_change_id db2 = get_change_id db ∧ db2.config = db.config :=
  ⟨_, write_changes_none_eq hfn db changes versioning_changes reset_history, rfl, rfl⟩

theorem write_changes_seq_ok_last {hfn : Key → Value → Hash} :
    ∀ (calls : List (List (Key × Option Value) × List (Key × Option Value) × ChangeID))
      (db db2 : RawMassaDB),
      write_changes_seq hfn db calls = .ok db2 →
      get_change_id db2 = ((calls.map fun c => c.2.2).getLast?).getD (get_change_id db)
  | [], db, db2, hok => by
    rw [write_changes_seq] at hok
    injection hok with hok
    subst hok
    rfl
  | c :: t, db, db2, hok => by
    rw [write_changes_seq] at hok
    cases hw : write_changes hfn db c.1 c.2.1 (some c.2.2) false with
    | error e => rw [hw] at hok; cases hok
    | ok db1 =>
      rw [hw] at hok
      have htail := write_changes_seq_ok_last t db1 db2 hok
      have hcid := write_changes_ok_change_id hw
      cases t with
      | nil => simpa [hcid] using htail
      | cons t1 t2 =>
        rcases Option.isSome_iff_exists.mp
            (List.getLast?_isSome.mpr (by simp : ((t1 :: t2).map fun c => c.2.2) ≠ []))
          with ⟨z, hz⟩
        rw [htail]
        simp only [List.map_cons] at hz ⊢
        rw [List.getLast?_cons_cons, hz]
        rfl

/-- Claim C6: after a sequence of successful `write_changes` calls with
strictly increasing explicit change ids, `get_change_id` returns the
change id of the last applied call. -/
theorem get_change_id_after_write_seq (hfn : Key → Value → Hash)
    (db db2 : RawMassaDB)
    (calls : List (List (Key × Option Value) × List (Key × Option Value) × ChangeID))
    (_hmono : (calls.map fun c => c.2.2).Pairwise (· < ·))
    (hne : calls ≠ [])
    (hok : write_changes_seq hfn db calls = .ok db2) :
    some (get_change_id db2) = (calls.map fun c => c.2.2).getLast? := by
  rcases Option.isSome_iff_exists.mp
      (List.getLast?_isSome.mpr (by simpa using hne : (calls.map fun c => c.2.2) ≠ []))
    with ⟨z, hz⟩
  rw [write_changes_seq_ok_last calls db db2 hok, hz]
  rfl

/-- Witness for C6: the two-write sequence that builds `dbW` ends at
change id 2, and `get_change_id` returns 2. -/
theorem get_change_id_after_write_seq_witness :
    some (get_change_id dbW) =
      ((([([([1], some [1])], [], 1), ([([2], some [2])], [], 2)] :
          List (List (Key × Option Value) × List (Key × Option Value) × ChangeID)).map
          fun c => c.2.2)).getLast? :=
  get_change_id_after_write_seq hfnW (emptyDb cfgW) dbW
    [([([1], some [1])], [], 1), ([([2], some [2])], [], 2)]
    (by decide) (List.cons_ne_nil _ _) (by decide)

theorem write_batch_bootstrap_client_ok_change_id {hfn : Key → Value → Hash}
    {db : RawMassaDB} {b bv : StreamBatch ChangeID}
    {r : RawMassaDB × StreamingStep Key × StreamingStep Key}
    (hok : write_batch_bootstrap_client hfn db b bv = .ok r) :
    get_change_id r.1 = b.change_id := by
  rw [write_batch_bootstrap_client] at hok
  cases hw : write_changes hfn db
      (extendAssoc (extendAssoc [] b.updates_on_previous_elements)
        (b.new_elements.map fun kv => (kv.1, some kv.2)))
      (extendAssoc (extendAssoc [] bv.updates_on_previous_elements)
        (bv.new_elements.map fun kv => (kv.1, some kv.2)))
      (some b.change_id) true with
  | error e => rw [hw] at hok; cases hok
  | ok db2 =>
    rw [hw] at hok
    injection hok with hok
    rw [← hok]
    exact write_changes_ok_change_id hw

/-- Claim C9 (amended): after a successful `write_batch_bootstrap_client`
call, a second call whose state batch carries a ChangeID strictly lower
than the first call's fails with `InvalidChangeID` (the store's ChangeID
having been set to the first batch's id). -/
theorem bootstrap_client_rejects_lower_change_id (hfn : Key → Value → Hash)
    (db : RawMassaDB) (b1 bv1 b2 bv2 : StreamBatch ChangeID)
    (r1 : RawMassaDB × StreamingStep Key × StreamingStep Key)
    (h1 : write_batch_bootstrap_client hfn db b1 bv1 = .ok r1)
    (hlt : b2.change_id < b1.change_id) :
    write_batch_bootstrap_client hfn r1.1 b2 bv2 =
      .error (.InvalidChangeID "change_id should monotonically increase after every write") := by
  have hcid := write_batch_bootstrap_client_ok_change_id h1
  have herr := write_changes_some_err hfn r1.1
    (extendAssoc (extendAssoc [] b2.updates_on_previous_elements)
      (b2.new_elements.map fun kv => (kv.1, some kv.2)))
    (extendAssoc (extendAssoc [] bv2.updates_on_previous_elements)
      (bv2.new_elements.map fun kv => (kv.1, some kv.2)))
    b2.change_id true (by rw [hcid]; exact hlt)
  rw [write_batch_bootstrap_client, herr]

/-- Witness for C9: after consuming a batch at change id 5 on an empty
store, a second batch at change id 4 is rejected. -/
theorem bootstrap_client_rejects_lower_change_id_witness :
    write_batch_bootstrap_client hfnW bootstrapStep1.1
      { new_elements := [([2], [2])], updates_on_previous_elements := [], change_id := 4 }
      (emptyVersioningBatch 4) =
    .error (.InvalidChangeID "change_id should monotonically increase after every write") :=
  bootstrap_client_rejects_lower_change_id hfnW (emptyDb cfgW)
    { new_elements := [([1], [1])], updates_on_previous_elements := [], change_id := 5 }
    (emptyVersioningBatch 5)
    { new_elements := [([2], [2])], updates_on_previous_elements := [], change_id := 4 }
    (emptyVersioningBatch 4) bootstrapStep1 (by decide) (by decide)

/-- Counterexample for C9 as stated: a second
`write_batch_bootstrap_client` call whose batch ChangeID equals the first
call's (5 then 5 again) succeeds, rather than failing with
`InvalidChangeID` — the guard in `write_changes` rejects only strictly
lower ids. -/
theorem bootstrap_client_equal_change_id_accepted :
    (((write_batch_bootstrap_client hfnW (emptyDb cfgW)
        { new_elements := [([1], [1])], updates_on_previous_elements := [],
          change_id := 5 }
        (emptyVersioningBatch 5)).bind fun r =>
      write_batch_bootstrap_client hfnW r.1
        { new_elements := [([2], [2])], updates_on_previous_elements := [],
          change_id := 5 }
        (emptyVersioningBatch 5)).isOk) = true := by
  decide

/-- Claim C4 (amended): after a successful `write_changes` call with
`reset_history = true`, the State change log is empty — the clear runs
after the append, so it removes the prior entries and this call's entry
alike — while the Versioning change log is not cleared at all: it keeps
its prior entries, with this call's versioning diff appended under the
resulting ChangeID and the oldest entries evicted down to
`max_history_length`. -/
theorem write_changes_reset_history_effect (hfn : Key → Value → Hash)
    (db db2 : RawMassaDB) (changes versioning_changes : List (Key × Option Value))
    (change_id : Option ChangeID)
    (hok : write_changes hfn db changes versioning_changes change_id true = .ok db2) :
    db2.change_history = [] ∧
    db2.change_history_versioning =
      evictHistory db.config.max_history_length
        (historyUpdate (get_change_id db2) versioning_changes
          db.change_history_versioning) := by
  have h := write_changes_ok_elim hok
  subst h
  exact ⟨rfl, rfl⟩

/-- Witness for C4 (amended): writing at change id 3 on `dbW` with
`reset_history = true` empties the State log and leaves the Versioning
log with the old entries plus the new one. -/
theorem write_changes_reset_history_effect_witness :
    (writeChangesApply hfnW dbW [([3], some [3])] [([9], some [9])]
        (some 3) true).change_history = [] ∧
    (writeChangesApply hfnW dbW [([3], some [3])] [([9], some [9])]
        (some 3) true).change_history_versioning =
      evictHistory dbW.config.max_history_length
        (historyUpdate
          (get_change_id (writeChangesApply hfnW dbW [([3], some [3])]
            [([9], some [9])] (some 3) true))
          [([9], some [9])] dbW.change_history_versioning) :=
  write_changes_reset_history_effect hfnW dbW _ [([3], some [3])] [([9], some [9])]
    (some 3) (by decide)

/-- Counterexample for C4 as stated: after a successful
`write_changes ... reset_history = true` call on `dbW`, the State change
log holds zero entries (not exactly one: the clear also deletes this
call's appended entry) and the Versioning change log holds three entries
(its prior two were never cleared). -/
theorem write_changes_reset_history_counterexample :
    (write_changes hfnW dbW [([3], some [3])] [([9], some [9])] (some 3) true).map
        (fun d => (d.change_history.length, d.change_history_versioning.length)) =
      .ok (0, 3) ∧
    ¬ (write_changes hfnW dbW [([3], some [3])] [([9], some [9])] (some 3) true).map
        (fun d => (d.change_history.length, d.change_history_versioning.length)) =
      .ok (1, 1) := by
  decide

/-- Claim C7 (amended): when the cursor is not `Started`, `last_change_id`
is present and strictly below the current ChangeID, and every retained
change-log entry is strictly after `last_change_id` (a history gap from
eviction — in particular whenever eviction has pushed the oldest retained
entry past `last_change_id`), `get_batch_to_stream` fails with
`TimeError`. -/
theorem get_batch_history_gap_time_error (db : RawMassaDB)
    (step : StreamingStep Key) (lcid : ChangeID)
    (hstep : step ≠ .Started) (hlt : lcid < get_change_id db)
    (hgap : ∀ e ∈ db.change_history, lcid < e.1) :
    get_batch_to_stream db step (some lcid) =
      .error (.TimeError "all our changes are strictly after last_change_id, we cannot be sure we did not miss any") := by
  have hall : (db.change_history.all fun e => decide (lcid < e.1)) = true :=
    List.all_eq_true.mpr fun e he => decide_eq_true (hgap e he)
  have hupd : computeUpdates db step (some lcid) =
      .error (.TimeError "all our changes are strictly after last_change_id, we cannot be sure we did not miss any") := by
    cases step with
    | Started => exact absurd rfl hstep
    | Ongoing mk =>
      rw [computeUpdates]
      simp only [if_neg (asymm hlt), if_neg (ne_of_lt hlt), hall, if_pos]
    | Finished o =>
      rw [computeUpdates]
      simp only [if_neg (asymm hlt), if_neg (ne_of_lt hlt), hall, if_pos]
      · intro h
        cases h
      · intro mk h
        cases h
  rw [get_batch_to_stream, hupd]

/-- Witness for C7 (amended): at `dbW` (history entries at ids 1 and 2,
current ChangeID 2), requesting a batch for `last_change_id = 0` fails
with `TimeError`. -/
theorem get_batch_history_gap_time_error_witness :
    get_batch_to_stream dbW (.Ongoing [1]) (some 0) =
      .error (.TimeError "all our changes are strictly after last_change_id, we cannot be sure we did not miss any") :=
  get_batch_history_gap_time_error dbW (.Ongoing [1]) 0
    (by decide) (by decide) (by decide)

/-- Counterexample for C7 as stated: at `dbW` the earliest retained
change-log entry (id 1) is at — not strictly after — `last_change_id = 1`,
which is strictly below the current ChangeID 2, and the call succeeds
instead of failing with `TimeError`: the source errors only when
`peek_prev` finds no entry at or before `last_change_id`. -/
theorem get_batch_history_boundary_accepted :
    (dbW.change_history.map Prod.fst).head? = some 1 ∧
    1 < get_change_id dbW ∧
    (get_batch_to_stream dbW (.Ongoing [1]) (some 1)).isOk = true := by
  decide

theorem dropWhile_drop_one_eq_filter {K : Type} [LinearOrder K] {A : Type}
    {s : List (K × A)} {mk : K} {v : A}
    (hs : SortedKeys s) (hmem : (mk, v) ∈ s) :
    ((s.dropWhile fun kv => decide (kv.1 < mk)).drop 1) =
      s.filter fun kv => decide (mk < kv.1) := by
  induction s with
  | nil => cases hmem
  | cons hd t ih =>
    rw [SortedKeys, List.pairwise_cons] at hs
    rcases List.mem_cons.mp hmem with h | h
    · have hk : hd.1 = mk := by rw [← h]
      have hnlt : ¬ (decide (hd.1 < mk) = true) := by
        rw [hk]
        simp
      rw [List.dropWhile_cons, if_neg hnlt, List.filter_cons_of_neg (by rw [hk]; simp)]
      rw [List.drop_one, List.tail_cons]
      exact (List.filter_eq_self.mpr fun a ha =>
        decide_eq_true (hk ▸ hs.1 a ha)).symm
    · have hlt : hd.1 < mk := hs.1 (mk, v) h
      rw [List.dropWhile_cons, if_pos (decide_eq_true hlt),
        List.filter_cons_of_neg (by simp [asymm hlt])]
      exact ih hs.2 h

theorem get_batch_ok_elim {db : RawMassaDB} {step : StreamingStep Key}
    {lcid : Option ChangeID} {batch : StreamBatch ChangeID}
    (hok : get_batch_to_stream db step lcid = .ok batch) :
    ∃ u, computeUpdates db step lcid = .ok u ∧
      batch = { new_elements := scanNewElements db.db_state step db.config.max_new_elements
                updates_on_previous_elements := u
                change_id := get_change_id db } := by
  rw [get_batch_to_stream] at hok
  cases h : computeUpdates db step lcid with
  | error e => rw [h] at hok; cases hok
  | ok u =>
    rw [h] at hok
    injection hok with hok
    exact ⟨u, rfl, hok.symm⟩

/-- Claim C8 (amended): a successful `get_batch_to_stream` whose cursor is
`Started` returns as `new_elements` the first `max_new_elements` pairs of
the State space in ascending key order; with cursor `Ongoing(max_key)` and
`max_key` still present in the State space, it returns up to
`max_new_elements` pairs whose keys are strictly greater than `max_key`,
in ascending key order (when `max_key` has been deleted, the engine
iterator instead starts at the first key after `max_key` and the
skip-one advance drops that element, see the counterexample); with cursor
`Finished`, `new_elements` is empty. -/
theorem get_batch_new_elements_characterization (db : RawMassaDB)
    (step : StreamingStep Key) (lcid : Option ChangeID) (batch : StreamBatch ChangeID)
    (hsort : SortedKeys db.db_state)
    (hpres : ∀ mk, step = .Ongoing mk → getAssoc mk db.db_state ≠ none)
    (hok : get_batch_to_stream db step lcid = .ok batch) :
    batch.new_elements =
      (match step with
       | .Started => db.db_state.take db.config.max_new_elements
       | .Ongoing mk =>
         (db.db_state.filter fun kv => mk < kv.1).take db.config.max_new_elements
       | .Finished _ => ([] : List (Key × Value))) := by
  rcases get_batch_ok_elim hok with ⟨u, hu, hb⟩
  subst hb
  cases step with
  | Started => rfl
  | Finished o => rfl
  | Ongoing mk =>
    have hp := hpres mk rfl
    cases hga : getAssoc mk db.db_state with
    | none => exact absurd hga hp
    | some v =>
      have hmem := mem_of_getAssoc_eq_some hga
      show scanNewElements db.db_state (.Ongoing mk) db.config.max_new_elements =
        (db.db_state.filter fun kv => mk < kv.1).take db.config.max_new_elements
      rw [scanNewElements.eq_def]
      simp only [StreamingStep.finished, Bool.false_eq_true, if_false]
      rw [dropWhile_drop_one_eq_filter hsort hmem]

/-- Witness for C8 (amended): on `dbW` with cursor `Ongoing [1]` (key [1]
present) the returned `new_elements` is exactly the capped tail of keys
strictly greater than [1]. -/
theorem get_batch_new_elements_characterization_witness :
    ({ new_elements := [([2], [2])], updates_on_previous_elements := []
       change_id := 2 } : StreamBatch ChangeID).new_elements =
      (match (.Ongoing [1] : StreamingStep Key) with
       | .Started => dbW.db_state.take dbW.config.max_new_elements
       | .Ongoing mk =>
         (dbW.db_state.filter fun kv => mk < kv.1).take dbW.config.max_new_elements
       | .Finished _ => ([] : List (Key × Value))) :=
  get_batch_new_elements_characterization dbW (.Ongoing [1]) (some 2)
    { new_elements := [([2], [2])], updates_on_previous_elements := []
      change_id := 2 }
    (by decide) (fun mk h => by cases h; decide) (by decide)

/-- Counterexample for C8 as stated: on `db8`, whose cursor key [1] was
deleted after being streamed, the call with cursor `Ongoing [1]` succeeds
but returns no `new_elements` at all, although key [2] is strictly
greater than [1] and the claim promises it: the engine iterator is
positioned at [2] (first key at or after [1]) and the unconditional
`iter.next()` skips it. -/
theorem get_batch_skips_after_deleted_cursor_key :
    (get_batch_to_stream db8 (.Ongoing [1]) (some 1)).map
        (fun b => b.new_elements) = .ok [] ∧
    (db8.db_state.filter fun kv => ([1] : Key) < kv.1).take
        db8.config.max_new_elements = [([2], [2])] := by
  decide

theorem get_xof_writeChangesApply (hfn : Key → Value → Hash) (db : RawMassaDB)
    (changes versioning_changes : List (Key × Option Value))
    (change_id : Option ChangeID) (reset_history : Bool) :
    get_xof_db_hash (writeChangesApply hfn db changes versioning_changes
        change_id reset_history) =
      writeHashLoop hfn db.db_state changes (get_xof_db_hash db) :=
  rfl

/-- Claim C5: applying a diff via `write_changes` and then its exact
inverse (restoring every touched key to its prior value or prior absence)
restores the persisted integrity hash: each key's xor contributions cancel
pairwise, the combination being commutative and self-inverse. -/
theorem hash_restored_by_inverse_diff (hfn : Key → Value → Hash)
    (db db1 db2 : RawMassaDB) (changes : List (Key × Option Value))
    (hsort : SortedKeys changes) (hs : SortedKeys db.db_state)
    (h1 : write_changes hfn db changes [] none false = .ok db1)
    (h2 : write_changes hfn db1 (inverseDiff db changes) [] none false = .ok db2) :
    get_xof_db_hash db2 = get_xof_db_hash db := by
  have e1 := write_changes_ok_elim h1
  have e2 := write_changes_ok_elim h2
  subst e1
  subst e2
  rw [get_xof_writeChangesApply, get_xof_writeChangesApply]
  rw [writeHashLoop_eq_contrib, writeHashLoop_eq_contrib]
  rw [foldl_xor_pull _ changes (get_xof_db_hash db)]
  rw [foldl_xor_pull _ (inverseDiff db changes)]
  have hstate : (writeChangesApply hfn db changes [] none false).db_state =
      applyChanges db.db_state changes := rfl
  have hmapfold :
      (inverseDiff db changes).foldl
          (fun h kv => h ^^^
            contrib hfn (writeChangesApply hfn db changes [] none false).db_state kv) 0 =
        changes.foldl
          (fun h kv => h ^^^ contrib hfn db.db_state kv) 0 := by
    rw [inverseDiff, List.foldl_map]
    refine foldl_xor_congr (fun kv hkv => ?_) 0
    have hmem : (kv.1, kv.2) ∈ changes := by rw [Prod.mk.eta]; exact hkv
    have hget : getAssoc kv.1 (applyChanges db.db_state changes) = kv.2 :=
      getAssoc_applyChanges_mem hsort hs hmem
    rw [contrib, contrib, hstate, hget]
    exact Nat.xor_comm _ _
  rw [hmapfold, Nat.xor_assoc, Nat.xor_self, Nat.xor_zero]

/-- Witness for C5: on `dbW`, the diff that deletes key [1], updates key
[2] and inserts key [3], followed by its exact inverse, restores the
persisted hash 34. -/
theorem hash_restored_by_inverse_diff_witness :
    get_xof_db_hash
        (writeChangesApply hfnW
          (writeChangesApply hfnW dbW
            [([1], none), ([2], some [5]), ([3], some [7])] [] none false)
          (inverseDiff dbW [([1], none), ([2], some [5]), ([3], some [7])])
          [] none false) =
      get_xof_db_hash dbW :=
  hash_restored_by_inverse_diff hfnW dbW
    (writeChangesApply hfnW dbW
      [([1], none), ([2], some [5]), ([3], some [7])] [] none false)
    (writeChangesApply hfnW
      (writeChangesApply hfnW dbW
        [([1], none), ([2], some [5]), ([3], some [7])] [] none false)
      (inverseDiff dbW [([1], none), ([2], some [5]), ([3], some [7])])
      [] none false)
    [([1], none), ([2], some [5]), ([3], some [7])]
    (by decide) (by decide) (by decide) (by decide)

theorem recompute_db_hash_eq (hfn : Key → Value → Hash) (db : RawMassaDB) :
    (recompute_db_hash hfn db).map get_xof_db_hash =
      .ok (get_xof_db_hash db ^^^
        db.db_state.foldl (fun h kv => h ^^^ hfn kv.1 kv.2) 0) := by
  show Except.ok
      (db.db_state.foldl (fun h kv => h ^^^ hfn kv.1 kv.2) (get_xof_db_hash db)) = _
  rw [foldl_xor_pull]

/-- Claim C3 exhibit: on the store `dbW`, reached from the empty store by
two successful `write_changes` calls, the persisted hash (34) equals the
from-scratch xor fold of the State contents — but `recompute_db_hash`
leaves the persisted hash equal to the initial constant instead, because
the source seeds the rescan accumulator with the current persisted hash
(`get_xof_db_hash`) rather than the initial constant, so the rescan xors
every pair's digest a second time and cancels them all. -/
theorem recompute_db_hash_diverges_from_incremental :
    write_changes_seq hfnW (emptyDb cfgW)
        [([([1], some [1])], [], 1), ([([2], some [2])], [], 2)] = .ok dbW ∧
    get_xof_db_hash dbW = hashOfState hfnW dbW.db_state ∧
    (recompute_db_hash hfnW dbW).map get_xof_db_hash = .ok STATE_HASH_INITIAL ∧
    STATE_HASH_INITIAL ≠ hashOfState hfnW dbW.db_state := by
  decide

theorem getAssoc_none_of_forall_lt {K : Type} [LinearOrder K] {A : Type}
    {k : K} {l : List (K × A)} (h : ∀ a ∈ l, a.1 < k) : getAssoc k l = none := by
  apply getAssoc_eq_none_of_not_mem
  intro hmem
  rcases List.mem_map.mp hmem with ⟨a, ha, hka⟩
  exact absurd (hka ▸ h a ha) (lt_irrefl k)

theorem sortedKeys_mapSome {news : List (Key × Value)} (h : SortedKeys news) :
    SortedKeys (news.map fun kv => (kv.1, some kv.2)) :=
  List.Pairwise.map _ (fun _ _ hab => hab) h

theorem extendAssoc_nil_nil {K : Type} [LinearOrder K] {A : Type}
    (l : List (K × A)) (hl : SortedKeys l) :
    extendAssoc (extendAssoc [] []) l = l :=
  extendAssoc_eq_append (show SortedKeys ((extendAssoc ([] : List (K × A)) []) ++ l) from hl)

theorem applyChanges_inserts_append {P news : List (Key × Value)}
    (h : SortedKeys (P ++ news)) :
    applyChanges P (news.map fun kv => (kv.1, some kv.2)) = P ++ news := by
  induction news generalizing P with
  | nil => simp [applyChanges]
  | cons hd t ih =>
    have hset : setAssoc hd.1 hd.2 P = P ++ [hd] := by
      rw [setAssoc_eq_append fun a ha =>
        (List.pairwise_append.mp h).2.2 a ha hd (List.mem_cons_self _ _)]
    have hassoc : (P ++ [hd]) ++ t = P ++ hd :: t := by simp
    have h2 : SortedKeys ((P ++ [hd]) ++ t) := by rw [hassoc]; exact h
    calc applyChanges P ((hd :: t).map fun kv => (kv.1, some kv.2))
        = applyChanges (setAssoc hd.1 hd.2 P) (t.map fun kv => (kv.1, some kv.2)) := rfl
      _ = (P ++ [hd]) ++ t := by rw [hset, ih h2]
      _ = P ++ hd :: t := hassoc

theorem writeHashLoop_inserts (hfn : Key → Value → Hash)
    {P : List (Key × Value)} {news : List (Key × Value)} (h0 : Hash)
    (hfresh : ∀ kv ∈ news, getAssoc kv.1 P = none) :
    writeHashLoop hfn P (news.map fun kv => (kv.1, some kv.2)) h0 =
      news.foldl (fun h kv => h ^^^ hfn kv.1 kv.2) h0 := by
  rw [writeHashLoop_eq_contrib, List.foldl_map]
  refine foldl_xor_congr (fun kv hkv => ?_) h0
  rw [contrib, hfresh kv hkv]
  rw [optDig, optDig]
  exact Nat.zero_xor _

theorem hashOfState_append (hfn : Key → Value → Hash) (P news : List (Key × Value)) :
    hashOfState hfn (P ++ news) =
      news.foldl (fun h kv => h ^^^ hfn kv.1 kv.2) (hashOfState hfn P) := by
  rw [hashOfState, hashOfState, List.foldl_append]

theorem key_le_of_getLast {K : Type} [LinearOrder K] {A : Type} :
    ∀ {P : List (K × A)} {kv : K × A}, SortedKeys P → P.getLast? = some kv →
      ∀ a ∈ P, a.1 ≤ kv.1
  | [], _, _, hlast, _, ha => by cases hlast
  | [hd], kv, _, hlast, a, ha => by
    rw [List.getLast?_singleton] at hlast
    injection hlast with hlast
    rcases List.mem_singleton.mp ha with rfl
    rw [← hlast]
  | hd :: hd2 :: t, kv, hs, hlast, a, ha => by
    rw [SortedKeys, List.pairwise_cons] at hs
    rw [List.getLast?_cons_cons] at hlast
    have hkvmem : kv ∈ hd2 :: t := List.mem_of_mem_getLast? hlast
    rcases List.mem_cons.mp ha with rfl | ha2
    · exact le_of_lt (hs.1 kv hkvmem)
    · exact key_le_of_getLast hs.2 hlast a ha2

theorem scanNewElements_suffix {P R : List (Key × Value)} {kv : Key × Value}
    (hs : SortedKeys (P ++ R)) (hlast : P.getLast? = some kv) (maxNew : Nat) :
    scanNewElements (P ++ R) (.Ongoing kv.1) maxNew = R.take maxNew := by
  have hsp : SortedKeys P := (List.pairwise_append.mp hs).1
  have hmemP : kv ∈ P := List.mem_of_mem_getLast? hlast
  have hmem : (kv.1, kv.2) ∈ P ++ R := by
    rw [Prod.mk.eta]
    exact List.mem_append_left R hmemP
  rw [scanNewElements.eq_def]
  simp only [StreamingStep.finished, Bool.false_eq_true, if_false]
  rw [dropWhile_drop_one_eq_filter hs hmem]
  rw [List.filter_append]
  have hfp : P.filter (fun x => decide (kv.1 < x.1)) = [] := by
    rw [List.filter_eq_nil_iff]
    intro a ha
    simp only [decide_eq_true_eq]
    exact not_lt.mpr (key_le_of_getLast hsp hlast a ha)
  have hfr : R.filter (fun x => decide (kv.1 < x.1)) = R := by
    rw [List.filter_eq_self]
    intro a ha
    exact decide_eq_true ((List.pairwise_append.mp hs).2.2 kv hmemP a ha)
  rw [hfp, hfr, List.nil_append]

theorem computeUpdates_started (db : RawMassaDB) (lcid : Option ChangeID) :
    computeUpdates db .Started lcid = .ok [] := by
  cases lcid <;> rfl

theorem computeUpdates_current (db : RawMassaDB) (step : StreamingStep Key) :
    computeUpdates db step (some (get_change_id db)) = .ok [] := by
  cases step with
  | Started => rfl
  | Ongoing mk =>
    rw [computeUpdates]
    simp
  | Finished o =>
    rw [computeUpdates]
    simp
    · intro h
      cases h
    · intro mk h
      cases h

theorem write_batch_bootstrap_static (hfn : Key → Value → Hash) (dest : RawMassaDB)
    (news : List (Key × Value)) (cid : ChangeID)
    (hsn : SortedKeys (news.map fun kv => (kv.1, some kv.2)))
    (hcid : ¬ cid < get_change_id dest) :
    write_batch_bootstrap_client hfn dest
        { new_elements := news, updates_on_previous_elements := [], change_id := cid }
        (emptyVersioningBatch cid) =
      .ok (writeChangesApply hfn dest (news.map fun kv => (kv.1, some kv.2)) []
            (some cid) true,
          (match news.getLast? with
           | some kv => .Ongoing kv.1
           | none => .Finished none),
          .Finished none) := by
  have hch := extendAssoc_nil_nil (news.map fun kv => (kv.1, some kv.2)) hsn
  have hchv : extendAssoc (extendAssoc ([] : List (Key × Option Value)) [])
      ([] : List (Key × Option Value)) = [] := rfl
  rw [write_batch_bootstrap_client]
  simp only [emptyVersioningBatch, List.map_nil, List.getLast?_nil, hch, hchv]
  rw [write_changes_some_eq hfn dest (news.map fun kv => (kv.1, some kv.2)) [] cid true hcid]

theorem streamLoop_inv (hfn : Key → Value → Hash) (src : RawMassaDB)
    (hsorted : SortedKeys src.db_state) (hmax : 0 < src.config.max_new_elements) :
    ∀ (fuel : Nat) (P R : List (Key × Value)) (dest : RawMassaDB)
      (cursor : StreamingStep Key) (lcid : Option ChangeID),
      src.db_state = P ++ R →
      R.length < fuel →
      dest.db_state = P →
      get_xof_db_hash dest = hashOfState hfn P →
      get_change_id dest ≤ get_change_id src →
      ((P = [] ∧ cursor = .Started) ∨
        (∃ kv, P.getLast? = some kv ∧ cursor = .Ongoing kv.1 ∧
          lcid = some (get_change_id src))) →
      ∃ dest2, streamLoop hfn src dest cursor lcid fuel = .ok dest2 ∧
        dest2.db_state = src.db_state ∧
        get_xof_db_hash dest2 = hashOfState hfn src.db_state := by
  intro fuel
  induction fuel with
  | zero =>
    intro P R dest cursor lcid _ hfuel _ _ _ _
    omega
  | succ fuel ih =>
    intro P R dest cursor lcid hsplit hfuel hdstate hdhash hdcid hcur
    have hsortPR : SortedKeys (P ++ R) := hsplit ▸ hsorted
    have hupd : computeUpdates src cursor lcid = .ok [] := by
      rcases hcur with ⟨hP, hC⟩ | ⟨kv, hlast, hC, hL⟩
      · rw [hC]
        exact computeUpdates_started src lcid
      · rw [hC, hL]
        exact computeUpdates_current src _
    have hscan : scanNewElements src.db_state cursor src.config.max_new_elements =
        R.take src.config.max_new_elements := by
      rcases hcur with ⟨hP, hC⟩ | ⟨kv, hlast, hC, hL⟩
      · rw [hC, hsplit, hP, List.nil_append]
        rfl
      · rw [hC, hsplit]
        exact scanNewElements_suffix hsortPR hlast _
    have hbatch : get_batch_to_stream src cursor lcid =
        .ok { new_elements := R.take src.config.max_new_elements
              updates_on_previous_elements := []
              change_id := get_change_id src } := by
      simp only [get_batch_to_stream, hupd, hscan]
    have hsnews : SortedKeys (P ++ R.take src.config.max_new_elements) :=
      List.Pairwise.sublist
        ((List.append_sublist_append_left P).mpr (List.take_sublist _ R)) hsortPR
    have hwb := write_batch_bootstrap_static hfn dest
      (R.take src.config.max_new_elements) (get_change_id src)
      (sortedKeys_mapSome (List.pairwise_append.mp hsnews).2.1)
      (not_lt.mpr hdcid)
    have hfresh : ∀ kv ∈ R.take src.config.max_new_elements,
        getAssoc kv.1 dest.db_state = none := by
      intro kv hkv
      rw [hdstate]
      apply getAssoc_none_of_forall_lt
      intro a ha
      exact (List.pairwise_append.mp hsnews).2.2 a ha kv hkv
    have hdsn : (writeChangesApply hfn dest
        ((R.take src.config.max_new_elements).map fun kv => (kv.1, some kv.2)) []
        (some (get_change_id src)) true).db_state =
        P ++ R.take src.config.max_new_elements := by
      show applyChanges dest.db_state _ = _
      rw [hdstate]
      exact applyChanges_inserts_append hsnews
    have hdhn : get_xof_db_hash (writeChangesApply hfn dest
        ((R.take src.config.max_new_elements).map fun kv => (kv.1, some kv.2)) []
        (some (get_change_id src)) true) =
        hashOfState hfn (P ++ R.take src.config.max_new_elements) := by
      rw [get_xof_writeChangesApply]
      rw [writeHashLoop_inserts hfn (get_xof_db_hash dest) hfresh]
      rw [hdhash, ← hashOfState_append]
    cases hlast2 : (R.take src.config.max_new_elements).getLast? with
    | none =>
      have hnews : R.take src.config.max_new_elements = [] :=
        List.getLast?_eq_none_iff.mp hlast2
      have hR : R = [] := by
        rcases List.take_eq_nil_iff.mp hnews with h | h
        · omega
        · exact h
      refine ⟨writeChangesApply hfn dest
          ((R.take src.config.max_new_elements).map fun kv => (kv.1, some kv.2)) []
          (some (get_change_id src)) true, ?_, ?_, ?_⟩
      · simp only [streamLoop, hbatch, hwb, hlast2]
      · rw [hdsn, hsplit, hR, List.take_nil]
      · rw [hdhn, hsplit, hR, List.take_nil]
    | some z =>
      have hRne : R ≠ [] := by
        intro h
        rw [h, List.take_nil] at hlast2
        cases hlast2
      have hlastP : (P ++ R.take src.config.max_new_elements).getLast? = some z := by
        rw [List.getLast?_append, hlast2]
        rfl
      have hsplit2 : src.db_state =
          (P ++ R.take src.config.max_new_elements) ++
            R.drop src.config.max_new_elements := by
        rw [List.append_assoc, List.take_append_drop]
        exact hsplit
      have hfuel2 : (R.drop src.config.max_new_elements).length < fuel := by
        rw [List.length_drop]
        have hRlen : 0 < R.length := List.length_pos.mpr hRne
        omega
      rcases ih (P ++ R.take src.config.max_new_elements)
          (R.drop src.config.max_new_elements)
          (writeChangesApply hfn dest
            ((R.take src.config.max_new_elements).map fun kv => (kv.1, some kv.2)) []
            (some (get_change_id src)) true)
          (.Ongoing z.1) (some (get_change_id src))
          hsplit2 hfuel2 hdsn hdhn (le_refl _)
          (Or.inr ⟨z, hlastP, rfl, rfl⟩) with ⟨dest2, hloop, hst, hh⟩
      refine ⟨dest2, ?_, hst, hh⟩
      simp only [streamLoop, hbatch, hwb, hlast2]
      exact hloop

/-- Claim C1: streaming a static source store from the `Started` cursor
until the consumer-derived cursor is `Finished`, applying every produced
batch in order to an initially empty store through
`write_batch_bootstrap_client`, reproduces the source's State space
contents exactly and its persisted integrity hash (read through
`get_xof_db_hash`), provided the source's persisted hash satisfies the
maintained invariant (it equals the xor fold of its State contents) and
`max_new_elements` is positive. -/
theorem bootstrap_roundtrip_reproduces_state_and_hash (hfn : Key → Value → Hash)
    (src : RawMassaDB) (cfg : MassaDBConfig)
    (hsorted : SortedKeys src.db_state)
    (hmax : 0 < src.config.max_new_elements)
    (hhash : get_xof_db_hash src = hashOfState hfn src.db_state) :
    (streamLoop hfn src (emptyDb cfg) .Started none (src.db_state.length + 1)).map
        (fun d => (d.db_state, get_xof_db_hash d)) =
      .ok (src.db_state, get_xof_db_hash src) := by
  rcases streamLoop_inv hfn src hsorted hmax (src.db_state.length + 1) [] src.db_state
      (emptyDb cfg) .Started none (by rw [List.nil_append]) (by omega) rfl rfl
      (Nat.zero_le _) (Or.inl ⟨rfl, rfl⟩) with ⟨dest2, h1, h2, h3⟩
  rw [h1]
  show Except.ok (dest2.db_state, get_xof_db_hash dest2) = _
  rw [h2, h3, hhash]

/-- Witness for C1: streaming `dbW` (two keys, `max_new_elements = 1`,
consistent persisted hash 34) into an empty store reproduces its State
contents and hash. -/
theorem bootstrap_roundtrip_witness :
    (streamLoop hfnW dbW (emptyDb cfgW) .Started none (dbW.db_state.length + 1)).map
        (fun d => (d.db_state, get_xof_db_hash d)) =
      .ok (dbW.db_state, get_xof_db_hash dbW) :=
  bootstrap_roundtrip_reproduces_state_and_hash hfnW dbW cfgW
    (by decide) (by decide) (by decide)

end Massa
